import Mathlib

/-!
Verification of the FitnessProTracker core against its specification.

Numbers are modelled as rationals (`ℚ`): every constant appearing in the
source (`0.0175`, `0.005`, `1.2`, `7700`, …) is an exact decimal, and the
specified properties are statements about the exact arithmetic of the
formulas.  Calendar dates are modelled as integers (day numbers); the
source compares dates lexicographically on `YYYY-MM-DD` strings, which
coincides with the chronological order that integer day numbers carry.
Python `round(x, 1)` is modelled as round-half-up to one decimal; the two
differ only on exact ties, which none of the specified inputs hit.
-/

namespace FitnessProTracker

/-! ### Goal ledger (`data_manager.py`) -/

/-- A goal record, with the fields read or written by
`data_manager.update_goal_progress`. -/
structure Goal where
  name : String
  type : String
  current : ℚ
  target : ℚ
  status : String
  completion_date : Option String
  deriving DecidableEq, Repr

/-- The loop guard of `update_goal_progress`:
`goal['status'] == 'active' and goal['type'] == goal_type`. -/
def goal_matches (goal_type : String) (g : Goal) : Bool :=
  decide (g.status = "active" ∧ g.type = goal_type)

/-- The body of the `for goal in goals` loop of `update_goal_progress`
(`data_manager.py` lines 52-61): add `amount` to `current`, and if the new
`current` reaches `target`, set `status` to `"completed"` and stamp
`completion_date` with the current date (`today`, the date of the
triggering event). -/
def apply_goal_update (goal_type : String) (amount : ℚ) (today : String) (g : Goal) : Goal :=
  if goal_matches goal_type g then
    let g1 := { g with current := g.current + amount }
    if g1.current ≥ g1.target then
      { g1 with status := "completed", completion_date := some today }
    else g1
  else g

/-- Embeds `data_manager.update_goal_progress` (lines 41-66): the updated
in-memory goal list, paired with the returned `updated` flag (set exactly
when some goal passed the loop guard). -/
def update_goal_progress (goal_type : String) (amount : ℚ) (today : String)
    (goals : List Goal) : List Goal × Bool :=
  (goals.map (apply_goal_update goal_type amount today),
   goals.any (goal_matches goal_type))

/-- The persisted goal list after `update_goal_progress`: the function calls
`save_data` only when `updated` is true, so otherwise the store keeps the
list it was loaded with. -/
def update_goal_progress_persisted (goal_type : String) (amount : ℚ) (today : String)
    (goals : List Goal) : List Goal :=
  if goals.any (goal_matches goal_type) then
    (update_goal_progress goal_type amount today goals).1
  else goals

/-! ### Formula library (`utils.py`) -/

/-- Python `round(x, 1)`, modelled as round-half-up to one decimal. -/
def py_round1 (q : ℚ) : ℚ := (round (q * 10) : ℤ) / 10

/-- Embeds `utils.calculate_bmi` (lines 28-34). -/
def calculate_bmi (height_cm weight_kg : ℚ) : ℚ :=
  if height_cm ≤ 0 ∨ weight_kg ≤ 0 then 0
  else
    let height_m := height_cm / 100
    py_round1 (weight_kg / height_m ^ 2)

/-- Embeds `utils.get_bmi_category` (lines 36-47). -/
def get_bmi_category (bmi : ℚ) : String :=
  if bmi ≤ 0 then "Unknown"
  else if bmi < 18.5 then "Underweight"
  else if bmi < 25 then "Normal weight"
  else if bmi < 30 then "Overweight"
  else "Obese"

/-- Embeds `utils.calories_to_weight` (lines 76-81): the absolute value is
taken only on the `"loss"` branch. -/
def calories_to_weight (calories : ℚ) (direction : String) : ℚ :=
  if direction = "loss" then |calories| / 7700
  else calories / 7700

/-! ### Calorie estimator (`models.py`) -/

/-- A feature row: ordered column-name/value pairs (a one-row DataFrame). -/
abbrev Row := List (String × ℚ)

/-- Value of column `c` in the row, if present. -/
def col? (row : Row) (c : String) : Option ℚ :=
  (row.find? (fun p => decide (p.1 = c))).map (fun p => p.2)

/-- The expected feature schema of `predict_calories` (`models.py` line 76). -/
def expected_columns : List String :=
  ["Age", "BMI", "Duration", "Heart_Rate", "Body_Temp", "Gender_male"]

/-- One iteration of the column-defaulting loop (`models.py` lines 77-79):
`if col not in input_data.columns: input_data[col] = 0`. -/
def fill_step (r : Row) (c : String) : Row :=
  if (col? r c).isSome then r else r ++ [(c, 0)]

/-- The column-defaulting loop over `expected_columns`. -/
def fill_missing (row : Row) : Row :=
  expected_columns.foldl fill_step row

/-- Embeds `models.fallback_prediction` (lines 92-107).  The source reads
`input_data["Age"]`, `["Duration"]`, `["Heart_Rate"]`, `["Gender_male"]`
without a guard, so a row missing one of them raises `KeyError`, modelled as
`Except.error`. -/
def fallback_prediction (row : Row) : Except String ℚ :=
  match col? row "Age", col? row "Duration", col? row "Heart_Rate", col? row "Gender_male" with
  | some age, some duration, some heart_rate, some gender_male =>
    let gender_factor : ℚ := if gender_male = 1 then 1.2 else 1.0
    let age_factor : ℚ := if age > 20 then 1.0 - (age - 20) * 0.005 else 1.0
    Except.ok (max 0 (duration * (heart_rate - 60) * 0.0175 * gender_factor * age_factor))
  | _, _, _, _ => Except.error "KeyError"

/-- Outcomes of the external collaborators of `predict_calories`: whether the
model file exists, whether lazy training succeeds, whether unpickling the
model succeeds, and the regressor's output (`none` when `model.predict`
raises). -/
structure PredictEnv where
  model_exists : Bool
  train_success : Bool
  load_ok : Bool
  predict_result : Option ℚ

/-- Embeds `models.predict_calories` (lines 47-90): when the model file is
absent, training is attempted, and on failure the fallback runs on the raw
row; when unpickling fails, the `except` handler runs the fallback on the
still-unmodified row; otherwise missing expected columns are defaulted to 0,
and a `model.predict` failure runs the fallback on the defaulted row. -/
def predict_calories (env : PredictEnv) (row : Row) : Except String ℚ :=
  if env.model_exists = false ∧ env.train_success = false then
    fallback_prediction row
  else if env.load_ok = false then
    fallback_prediction row
  else
    match env.predict_result with
    | some v => Except.ok v
    | none => fallback_prediction (fill_missing row)

/-! ### Consistency score (`app.py` lines 1102-1121) -/

/-- Embeds the consistency analysis block: with no workout dates the score
stays 0; otherwise the dates are sorted, `date_range` is last minus first
plus one (in days), `ideal_count = (date_range / 7) * ideal_frequency`,
`actual_count` is the number of workouts, and the score is
`min(100, actual_count / ideal_count * 100)` when `ideal_count > 0`, else 0.
Dates are day numbers (`ℤ`); subtraction of parsed `datetime`s in days is
integer subtraction. -/
def consistency_score (dates : List ℤ) (ideal_frequency : ℚ) : ℚ :=
  if dates = [] then 0
  else
    let sorted := dates.insertionSort (· ≤ ·)
    let date_range : ℤ := sorted.getLast! - sorted.head! + 1
    let ideal_count : ℚ := ((date_range : ℚ) / 7) * ideal_frequency
    let actual_count : ℚ := (dates.length : ℚ)
    if ideal_count > 0 then min 100 (actual_count / ideal_count * 100) else 0

/-! ### Energy-balance merge (`app.py` lines 1154-1221) -/

/-- A merged per-date record `{date, burned, consumed}`. -/
structure EBRec where
  date : ℤ
  burned : ℚ
  consumed : ℚ
  deriving DecidableEq, Repr

/-- Embeds `if date not in date_data: date_data[date] = {date, burned: 0,
consumed: 0}` (`app.py` lines 1169-1170 and 1175-1176). -/
def eb_touch (acc : List EBRec) (d : ℤ) : List EBRec :=
  if acc.any (fun r => decide (r.date = d)) then acc else acc ++ [⟨d, 0, 0⟩]

/-- Embeds one iteration of the workout loop:
`date_data[date]["burned"] += calories` (line 1171). -/
def eb_add_burned (acc : List EBRec) (p : ℤ × ℚ) : List EBRec :=
  (eb_touch acc p.1).map
    (fun r => if r.date = p.1 then { r with burned := r.burned + p.2 } else r)

/-- Embeds one iteration of the nutrition loop:
`date_data[date]["consumed"] += calories` (line 1177). -/
def eb_add_consumed (acc : List EBRec) (p : ℤ × ℚ) : List EBRec :=
  (eb_touch acc p.1).map
    (fun r => if r.date = p.1 then { r with consumed := r.consumed + p.2 } else r)

/-- Embeds the merge of workout and nutrition calorie streams by date
(`app.py` lines 1154-1181): both input streams are sorted by date, folded
into the keyed `date_data` collection, and the merged records are sorted by
date. -/
def merge_energy_balance (workouts meals : List (ℤ × ℚ)) : List EBRec :=
  let workout_calories := List.insertionSort (fun a b => a.1 ≤ b.1) workouts
  let nutrition_data := List.insertionSort (fun a b => a.1 ≤ b.1) meals
  let date_data := nutrition_data.foldl eb_add_consumed
    (workout_calories.foldl eb_add_burned [])
  List.insertionSort (fun a b => a.date ≤ b.date) date_data

/-- Embeds the net-calories loop (`app.py` lines 1216-1221):
one `{date, net: consumed - burned}` record per merged record. -/
def net_calories (recent_data : List EBRec) : List (ℤ × ℚ) :=
  recent_data.map (fun d => (d.date, d.consumed - d.burned))

/-! ### Nutrition history (`nutrition.py`) -/

/-- A nutrition record: the date and the four summed nutrient fields of a
meal log entry (the fields `get_nutrition_history` reads and writes). -/
structure Meal where
  date : ℤ
  calories : ℚ
  protein : ℚ
  carbs : ℚ
  fat : ℚ
  deriving DecidableEq, Repr

/-- Embeds the four `aggregated_data[date][...] += log[...]` updates
(`nutrition.py` lines 91-94). -/
def add_meal (r log : Meal) : Meal :=
  ⟨r.date, r.calories + log.calories, r.protein + log.protein,
   r.carbs + log.carbs, r.fat + log.fat⟩

/-- Embeds `if date not in aggregated_data: aggregated_data[date] = {date,
calories: 0, protein: 0, carbs: 0, fat: 0}` (`nutrition.py` lines 82-89). -/
def nh_touch (acc : List Meal) (d : ℤ) : List Meal :=
  if acc.any (fun r => decide (r.date = d)) then acc else acc ++ [⟨d, 0, 0, 0, 0⟩]

/-- Embeds one iteration of the aggregation loop (`nutrition.py` lines
80-94): create the zeroed record for an unseen date, then add the log's
nutrient fields to its date's record. -/
def nh_step (acc : List Meal) (log : Meal) : List Meal :=
  (nh_touch acc log.date).map (fun r => if r.date = log.date then add_meal r log else r)

/-- Lookup of the aggregate record keyed by date (dictionary access on
`aggregated_data`). -/
def agg_find (acc : List Meal) (d : ℤ) : Option Meal :=
  acc.find? (fun r => decide (r.date = d))

instance : IsTotal Meal (fun a b => a.date ≤ b.date) :=
  ⟨fun a b => le_total a.date b.date⟩

instance : IsTrans Meal (fun a b => a.date ≤ b.date) :=
  ⟨fun _ _ _ h1 h2 => le_trans h1 h2⟩

/-- Embeds `nutrition.get_nutrition_history` (lines 59-100): with no `days`
argument the stored logs are returned verbatim; otherwise the logs are
filtered to `date >= cutoff`, aggregated per date, and sorted by date. The
cutoff (`now - days` in the source) is the abstract parameter. -/
def get_nutrition_history (cutoff : Option ℤ) (nutrition_logs : List Meal) : List Meal :=
  match cutoff with
  | none => nutrition_logs
  | some c =>
    let filtered_logs := nutrition_logs.filter (fun log => decide (c ≤ log.date))
    let aggregated := filtered_logs.foldl nh_step []
    List.insertionSort (fun a b => a.date ≤ b.date) aggregated

/-! ### Theorems: goal ledger -/

/-- C1: for every delta `d ≥ 0` and every stored goal that is `active` and of
the given type, `update_goal_progress` adds exactly `d` to that goal's
`current` (a broadcast over all matching goals), and whenever the post-update
`current` reaches `target` the goal's `status` becomes `completed` with
`completion_date` stamped with the triggering event's date; the call returns
`true` (some goal was updated). -/
theorem update_goal_progress_broadcast (goal_type : String) (d : ℚ) (today : String)
    (goals : List Goal) (hd : 0 ≤ d) (i : ℕ) (hi : i < goals.length)
    (hact : goals[i].status = "active")
    (hty : goals[i].type = goal_type) :
    ∃ g1, (update_goal_progress goal_type d today goals).1[i]? = some g1 ∧
      g1.current = goals[i].current + d ∧
      (g1.current ≥ goals[i].target →
        g1.status = "completed" ∧ g1.completion_date = some today) ∧
      (update_goal_progress goal_type d today goals).2 = true := by
  have hm : goal_matches goal_type goals[i] = true := by
    simp [goal_matches, hact, hty]
  refine ⟨apply_goal_update goal_type d today goals[i], ?_, ?_, ?_, ?_⟩
  · simp [update_goal_progress, List.getElem?_eq_getElem hi]
  · rw [apply_goal_update, if_pos hm]
    by_cases hc : goals[i].current + d ≥ goals[i].target <;> simp [hc]
  · intro hpost
    rw [apply_goal_update, if_pos hm]
    rw [apply_goal_update, if_pos hm] at hpost
    by_cases hc : goals[i].current + d ≥ goals[i].target
    · simp [hc]
    · exfalso
      apply hc
      simp [hc] at hpost
  · exact List.any_eq_true.mpr ⟨goals[i], List.getElem_mem hi, hm⟩

/-- Witness for `update_goal_progress_broadcast` at a concrete store. -/
theorem update_goal_progress_broadcast_witness :
    ∃ g1, (update_goal_progress "workout_count" 5 "2026-01-01"
        [⟨"g", "workout_count", 1, 3, "active", none⟩]).1[0]? = some g1 ∧
      g1.current = 6 ∧ g1.status = "completed" ∧
      g1.completion_date = some "2026-01-01" ∧
      (update_goal_progress "workout_count" 5 "2026-01-01"
        [⟨"g", "workout_count", 1, 3, "active", none⟩]).2 = true := by
  obtain ⟨g1, h1, h2, h3, h4⟩ :=
    update_goal_progress_broadcast "workout_count" 5 "2026-01-01"
      [⟨"g", "workout_count", 1, 3, "active", none⟩] (by norm_num) 0 (by decide) rfl rfl
  have hc : g1.current = 6 := by rw [h2]; norm_num
  have hdone := h3 (by rw [hc]; norm_num)
  exact ⟨g1, h1, hc, hdone.1, hdone.2, h4⟩

/-- C2: completed goals are terminal: a goal whose `status` is `completed`
is left entirely unchanged (same `current`, `status`, `completion_date`) by
any later `update_goal_progress` call, both in the returned list and in the
persisted store. -/
theorem update_goal_progress_completed_terminal (goal_type : String) (d : ℚ)
    (today : String) (goals : List Goal) (i : ℕ) (hi : i < goals.length)
    (hcomp : goals[i].status = "completed") :
    (update_goal_progress goal_type d today goals).1[i]? = some goals[i] ∧
    (update_goal_progress_persisted goal_type d today goals)[i]? = some goals[i] := by
  have hm : goal_matches goal_type goals[i] = false := by
    simp only [goal_matches, decide_eq_false_iff_not]
    rintro ⟨ha, -⟩
    rw [hcomp] at ha
    exact absurd ha (by decide)
  have hfix : apply_goal_update goal_type d today goals[i] = goals[i] := by
    rw [apply_goal_update, if_neg (by simp [hm])]
  have hmem : (update_goal_progress goal_type d today goals).1[i]? = some goals[i] := by
    simp only [update_goal_progress, List.getElem?_map, List.getElem?_eq_getElem hi,
      Option.map_some']
    rw [hfix]
  refine ⟨hmem, ?_⟩
  rw [update_goal_progress_persisted]
  split
  · exact hmem
  · simp [List.getElem?_eq_getElem hi]

/-- Witness for `update_goal_progress_completed_terminal`. -/
theorem update_goal_progress_completed_terminal_witness :
    (update_goal_progress "workout_count" 5 "2026-01-01"
        [⟨"g", "workout_count", 4, 3, "completed", some "2025-12-31"⟩]).1[0]?
      = some ⟨"g", "workout_count", 4, 3, "completed", some "2025-12-31"⟩ ∧
    (update_goal_progress_persisted "workout_count" 5 "2026-01-01"
        [⟨"g", "workout_count", 4, 3, "completed", some "2025-12-31"⟩])[0]?
      = some ⟨"g", "workout_count", 4, 3, "completed", some "2025-12-31"⟩ :=
  update_goal_progress_completed_terminal "workout_count" 5 "2026-01-01"
    [⟨"g", "workout_count", 4, 3, "completed", some "2025-12-31"⟩] 0 (by decide) rfl

/-- C9: `update_goal_progress` modifies only goals that are `active` and of
the given type: every other goal is unchanged in all fields; and when no goal
matches, the call returns `false` and the persisted store keeps exactly the
list it was loaded with. -/
theorem update_goal_progress_frame (goal_type : String) (d : ℚ) (today : String)
    (goals : List Goal) :
    (∀ i (hi : i < goals.length),
        ¬(goals[i].status = "active" ∧ goals[i].type = goal_type) →
        (update_goal_progress goal_type d today goals).1[i]? = some goals[i]) ∧
    ((∀ g ∈ goals, ¬(g.status = "active" ∧ g.type = goal_type)) →
        (update_goal_progress goal_type d today goals).2 = false ∧
        update_goal_progress_persisted goal_type d today goals = goals) := by
  constructor
  · intro i hi hnot
    have hm : goal_matches goal_type goals[i] = false := by
      simpa [goal_matches] using hnot
    have hfix : apply_goal_update goal_type d today goals[i] = goals[i] := by
      rw [apply_goal_update, if_neg (by simp [hm])]
    simp only [update_goal_progress, List.getElem?_map, List.getElem?_eq_getElem hi,
      Option.map_some']
    rw [hfix]
  · intro hnone
    have hany : goals.any (goal_matches goal_type) = false := by
      simp only [List.any_eq_false]
      intro g hgmem
      simpa [goal_matches] using hnone g hgmem
    exact ⟨by simp [update_goal_progress, hany],
      by rw [update_goal_progress_persisted, hany]; simp⟩

/-- Witness for `update_goal_progress_frame`. -/
theorem update_goal_progress_frame_witness :
    (update_goal_progress "workout_count" 5 "2026-01-01"
        [⟨"g", "weight", 1, 3, "active", none⟩]).1[0]?
      = some ⟨"g", "weight", 1, 3, "active", none⟩ ∧
    (update_goal_progress "workout_count" 5 "2026-01-01"
        [⟨"g", "weight", 1, 3, "active", none⟩]).2 = false ∧
    update_goal_progress_persisted "workout_count" 5 "2026-01-01"
        [⟨"g", "weight", 1, 3, "active", none⟩]
      = [⟨"g", "weight", 1, 3, "active", none⟩] := by
  have h := update_goal_progress_frame "workout_count" 5 "2026-01-01"
    [⟨"g", "weight", 1, 3, "active", none⟩]
  refine ⟨h.1 0 (by decide) (by rintro ⟨-, ht⟩; exact absurd ht (by decide)), ?_, ?_⟩
  · exact (h.2 (by rintro g hg ⟨-, ht⟩; simp_all)).1
  · exact (h.2 (by rintro g hg ⟨-, ht⟩; simp_all)).2

/-! ### Theorems: formula library -/

/-- C7: `calculate_bmi` returns 0 whenever either argument is non-positive,
otherwise `weight / (height/100)^2` rounded to one decimal; in particular
`calculate_bmi 170 70 = 24.2` and `calculate_bmi 0 70 = 0`.
`get_bmi_category` maps the ranges with inclusive lower boundaries, and
`get_bmi_category 24.2 = "Normal weight"`. -/
theorem calculate_bmi_spec :
    (∀ h w : ℚ, h ≤ 0 ∨ w ≤ 0 → calculate_bmi h w = 0) ∧
    (∀ h w : ℚ, 0 < h → 0 < w → calculate_bmi h w = py_round1 (w / (h / 100) ^ 2)) ∧
    calculate_bmi 170 70 = 24.2 ∧
    calculate_bmi 0 70 = 0 ∧
    (∀ b : ℚ, (b ≤ 0 → get_bmi_category b = "Unknown") ∧
      (0 < b → b < 18.5 → get_bmi_category b = "Underweight") ∧
      (18.5 ≤ b → b < 25 → get_bmi_category b = "Normal weight") ∧
      (25 ≤ b → b < 30 → get_bmi_category b = "Overweight") ∧
      (30 ≤ b → get_bmi_category b = "Obese")) ∧
    get_bmi_category 24.2 = "Normal weight" := by
  have hcat : ∀ b : ℚ, (b ≤ 0 → get_bmi_category b = "Unknown") ∧
      (0 < b → b < 18.5 → get_bmi_category b = "Underweight") ∧
      (18.5 ≤ b → b < 25 → get_bmi_category b = "Normal weight") ∧
      (25 ≤ b → b < 30 → get_bmi_category b = "Overweight") ∧
      (30 ≤ b → get_bmi_category b = "Obese") := by
    intro b
    refine ⟨fun h1 => ?_, fun h1 h2 => ?_, fun h1 h2 => ?_, fun h1 h2 => ?_, fun h1 => ?_⟩
    · rw [get_bmi_category, if_pos h1]
    · rw [get_bmi_category, if_neg (by linarith), if_pos h2]
    · rw [get_bmi_category, if_neg (by norm_num; linarith), if_neg (by linarith), if_pos h2]
    · rw [get_bmi_category, if_neg (by norm_num; linarith), if_neg (by norm_num; linarith),
        if_neg (by linarith), if_pos h2]
    · rw [get_bmi_category, if_neg (by norm_num; linarith), if_neg (by norm_num; linarith),
        if_neg (by norm_num; linarith), if_neg (by linarith)]
  refine ⟨fun h w hle => by rw [calculate_bmi, if_pos hle],
    fun h w h1 h2 => by rw [calculate_bmi, if_neg (by push_neg; constructor <;> linarith)],
    ?_, by rw [calculate_bmi]; norm_num, hcat, ?_⟩
  · rw [calculate_bmi, if_neg (by norm_num)]
    show py_round1 (70 / (170 / 100) ^ 2) = 24.2
    rw [py_round1]
    have h1 : (70 / (170 / 100) ^ 2 * 10 : ℚ) = 70000 / 289 := by norm_num
    rw [h1, round_eq]
    norm_num
  · exact (hcat 24.2).2.2.1 (by norm_num) (by norm_num)

/-- Witness for `calculate_bmi_spec` at concrete inputs. -/
theorem calculate_bmi_spec_witness :
    calculate_bmi (-170) 70 = 0 ∧
    calculate_bmi 170 70 = py_round1 (70 / (170 / 100) ^ 2) ∧
    get_bmi_category 20 = "Normal weight" :=
  ⟨calculate_bmi_spec.1 (-170) 70 (Or.inl (by norm_num)),
   calculate_bmi_spec.2.1 170 70 (by norm_num) (by norm_num),
   (calculate_bmi_spec.2.2.2.2.1 20).2.2.1 (by norm_num) (by norm_num)⟩

/-- C8 counterexample: for negative calories with a direction other than
`"loss"`, `calories_to_weight` does not return the magnitude: at
`calories = -7700`, `direction = "gain"` it returns `-1`, while
`|(-7700)| / 7700 = 1`. -/
theorem calories_to_weight_counterexample :
    calories_to_weight (-7700) "gain" = -1 ∧
    |(-7700 : ℚ)| / 7700 = 1 ∧ ((-1 : ℚ) ≠ 1) := by
  refine ⟨?_, by norm_num, by norm_num⟩
  rw [calories_to_weight, if_neg (by decide)]
  norm_num

/-- C8 amended: `calories_to_weight` returns the magnitude `|calories|/7700`
when the direction is `"loss"` or the calories are non-negative; (for any
other direction it divides the signed value, so a negative input yields a
negative result). -/
theorem calories_to_weight_amended (c : ℚ) (dir : String)
    (h : dir = "loss" ∨ 0 ≤ c) :
    calories_to_weight c dir = |c| / 7700 := by
  rcases h with h | h
  · rw [calories_to_weight, if_pos h]
  · by_cases hd : dir = "loss"
    · rw [calories_to_weight, if_pos hd]
    · rw [calories_to_weight, if_neg hd, abs_of_nonneg h]

/-- Witness for `calories_to_weight_amended`. -/
theorem calories_to_weight_amended_witness :
    calories_to_weight (-3) "loss" = |(-3 : ℚ)| / 7700 :=
  calories_to_weight_amended (-3) "loss" (Or.inl rfl)

/-! ### Theorems: calorie estimator -/

/-- Filling one column never removes an existing column. -/
theorem col?_fill_step_mono (r : Row) (c c' : String) (h : (col? r c).isSome = true) :
    (col? (fill_step r c') c).isSome = true := by
  rw [fill_step]
  split
  · exact h
  · rcases hf : r.find? (fun p => decide (p.1 = c)) with _ | q
    · simp [col?, hf] at h
    · simp [col?, List.find?_append, hf]

/-- After `fill_step r c`, column `c` is present. -/
theorem col?_fill_step_self (r : Row) (c : String) :
    (col? (fill_step r c) c).isSome = true := by
  rw [fill_step]
  split
  · assumption
  · rw [col?, List.find?_append]
    rcases hfind : r.find? (fun p => decide (p.1 = c)) with _ | p <;> simp [hfind]

/-- The defaulting fold never removes an existing column. -/
theorem col?_foldl_fill_mono (cols : List String) (r : Row) (c : String)
    (h : (col? r c).isSome = true) :
    (col? (cols.foldl fill_step r) c).isSome = true := by
  induction cols generalizing r with
  | nil => exact h
  | cons c' cs ih => exact ih _ (col?_fill_step_mono r c c' h)

/-- Every column of the fold's column list is present afterwards. -/
theorem col?_foldl_fill_of_mem (cols : List String) (r : Row) (c : String)
    (hc : c ∈ cols) :
    (col? (cols.foldl fill_step r) c).isSome = true := by
  induction cols generalizing r with
  | nil => cases hc
  | cons c' cs ih =>
    rcases List.mem_cons.mp hc with rfl | hmem
    · exact col?_foldl_fill_mono cs _ c (col?_fill_step_self r c)
    · exact ih _ hmem

/-- With the four columns the fallback reads all present, it succeeds. -/
theorem fallback_prediction_isOk (row : Row)
    (hA : (col? row "Age").isSome = true)
    (hD : (col? row "Duration").isSome = true)
    (hH : (col? row "Heart_Rate").isSome = true)
    (hG : (col? row "Gender_male").isSome = true) :
    ∃ v, fallback_prediction row = Except.ok v := by
  obtain ⟨a, ha⟩ := Option.isSome_iff_exists.mp hA
  obtain ⟨d, hd⟩ := Option.isSome_iff_exists.mp hD
  obtain ⟨h, hh⟩ := Option.isSome_iff_exists.mp hH
  obtain ⟨g, hg⟩ := Option.isSome_iff_exists.mp hG
  exact ⟨_, by rw [fallback_prediction, ha, hd, hh, hg]⟩

/-- Evaluation of the fallback on a row listing exactly the four columns it
reads, in source order of the formula. -/
theorem fallback_prediction_eval (age duration heart_rate gender_male : ℚ) :
    fallback_prediction
        [("Age", age), ("Duration", duration), ("Heart_Rate", heart_rate),
         ("Gender_male", gender_male)]
      = Except.ok (max 0 (duration * (heart_rate - 60) * 0.0175 *
          (if gender_male = 1 then 1.2 else 1.0) *
          (if age > 20 then 1.0 - (age - 20) * 0.005 else 1.0))) := by
  have hA : col? [("Age", age), ("Duration", duration), ("Heart_Rate", heart_rate),
      ("Gender_male", gender_male)] "Age" = some age := rfl
  have hD : col? [("Age", age), ("Duration", duration), ("Heart_Rate", heart_rate),
      ("Gender_male", gender_male)] "Duration" = some duration := rfl
  have hH : col? [("Age", age), ("Duration", duration), ("Heart_Rate", heart_rate),
      ("Gender_male", gender_male)] "Heart_Rate" = some heart_rate := rfl
  have hG : col? [("Age", age), ("Duration", duration), ("Heart_Rate", heart_rate),
      ("Gender_male", gender_male)] "Gender_male" = some gender_male := rfl
  rw [fallback_prediction, hA, hD, hH, hG]

/-- C3 counterexample: `predict_calories` can raise to its caller.  With the
model file absent and training failing, the call falls through to
`fallback_prediction` on the raw row; on a row missing the `Age` column the
unguarded `input_data["Age"]` access raises `KeyError` rather than
defaulting the column to 0. -/
theorem predict_calories_counterexample :
    predict_calories ⟨false, false, false, none⟩ [] = Except.error "KeyError" := by
  rfl

/-- C3 amended: provided the input row contains the four columns the
fallback formula reads (`Age`, `Duration`, `Heart_Rate`, `Gender_male`),
`predict_calories` never raises: under every internal failure mode (model
file absent, training failing, model corrupt, or `model.predict` failing)
it returns a value, and on the model path the remaining missing expected
columns are defaulted to 0. -/
theorem predict_calories_amended (env : PredictEnv) (row : Row)
    (hA : (col? row "Age").isSome = true)
    (hD : (col? row "Duration").isSome = true)
    (hH : (col? row "Heart_Rate").isSome = true)
    (hG : (col? row "Gender_male").isSome = true) :
    ∃ v, predict_calories env row = Except.ok v := by
  rw [predict_calories]
  split
  · exact fallback_prediction_isOk row hA hD hH hG
  · split
    · exact fallback_prediction_isOk row hA hD hH hG
    · rcases hpr : env.predict_result with _ | v
      · simp only [hpr]
        refine fallback_prediction_isOk _ ?_ ?_ ?_ ?_ <;>
          exact col?_foldl_fill_of_mem expected_columns row _ (by decide)
      · exact ⟨v, by simp [hpr]⟩

/-- Witness for `predict_calories_amended` at a concrete row and a concrete
environment in which every collaborator fails. -/
theorem predict_calories_amended_witness :
    ∃ v, predict_calories ⟨false, false, false, none⟩
      [("Age", 25), ("Duration", 30), ("Heart_Rate", 120), ("Gender_male", 1)]
        = Except.ok v :=
  predict_calories_amended ⟨false, false, false, none⟩
    [("Age", 25), ("Duration", 30), ("Heart_Rate", 120), ("Gender_male", 1)]
    (by decide) (by decide) (by decide) (by decide)

/-- C4 counterexample: at `age = 25`, `duration = 30`, `heart_rate = 120`,
male, the fallback yields `36.855`, not the claimed `37.8`: the age factor
at age 25 is `1 - 5*0.005 = 0.975`, not `1.0`. -/
theorem fallback_prediction_counterexample :
    fallback_prediction [("Age", 25), ("Duration", 30), ("Heart_Rate", 120), ("Gender_male", 1)]
      = Except.ok 36.855 ∧ (36.855 : ℚ) ≠ 37.8 := by
  refine ⟨?_, by norm_num⟩
  rw [fallback_prediction_eval, if_pos (by norm_num : (25 : ℚ) > 20),
    if_pos (by norm_num : (1 : ℚ) = 1), max_eq_right (by norm_num)]
  norm_num

/-- C4 amended: the fallback equals
`max 0 (duration * (heart_rate - 60) * 0.0175 * gender_factor * age_factor)`
with `gender_factor = 1.2` for male else `1.0` and `age_factor = 1.0` for
`age ≤ 20` else `1.0 - (age-20)*0.005`; it is never negative; and at
`age=25, duration=30, heart_rate=120`, male, it equals
`30*(120-60)*0.0175*1.2*0.975 = 36.855`. -/
theorem fallback_prediction_formula :
    (∀ (row : Row) (v : ℚ), fallback_prediction row = Except.ok v → 0 ≤ v) ∧
    (∀ age duration heart_rate gender_male : ℚ,
      fallback_prediction
          [("Age", age), ("Duration", duration), ("Heart_Rate", heart_rate),
           ("Gender_male", gender_male)]
        = Except.ok (max 0 (duration * (heart_rate - 60) * 0.0175 *
            (if gender_male = 1 then 1.2 else 1.0) *
            (if age ≤ 20 then 1.0 else 1.0 - (age - 20) * 0.005)))) ∧
    fallback_prediction [("Age", 25), ("Duration", 30), ("Heart_Rate", 120), ("Gender_male", 1)]
      = Except.ok 36.855 := by
  refine ⟨?_, ?_, ?_⟩
  · intro row v h
    rcases hA : col? row "Age" with _ | a <;>
      rcases hD : col? row "Duration" with _ | d <;>
        rcases hH : col? row "Heart_Rate" with _ | hr <;>
          rcases hG : col? row "Gender_male" with _ | g <;>
            rw [fallback_prediction, hA, hD, hH, hG] at h <;>
              cases h
    exact le_max_left 0 _
  · intro age duration heart_rate gender_male
    rw [fallback_prediction_eval]
    by_cases hage : age ≤ 20
    · rw [if_neg (not_lt.mpr hage), if_pos hage]
    · rw [if_pos (not_le.mp hage), if_neg hage]
  · rw [fallback_prediction_eval, if_pos (by norm_num : (25 : ℚ) > 20),
      if_pos (by norm_num : (1 : ℚ) = 1), max_eq_right (by norm_num)]
    norm_num

/-- Witness for the conditional part of `fallback_prediction_formula`. -/
theorem fallback_prediction_formula_witness : 0 ≤ (36.855 : ℚ) :=
  fallback_prediction_formula.1
    [("Age", 25), ("Duration", 30), ("Heart_Rate", 120), ("Gender_male", 1)]
    36.855 fallback_prediction_formula.2.2

/-! ### Theorems: consistency score -/

/-- The head of a sorted nonempty list is a lower bound. -/
theorem sorted_head!_le {l : List ℤ} (hs : List.Sorted (· ≤ ·) l) (hne : l ≠ [])
    (x : ℤ) (hx : x ∈ l) : l.head! ≤ x := by
  cases l with
  | nil => cases hne rfl
  | cons a t =>
    rcases List.mem_cons.mp hx with rfl | hx2
    · simp
    · simpa using List.rel_of_sorted_cons hs x hx2

/-- The last element of a sorted nonempty list is an upper bound. -/
theorem sorted_le_getLast {l : List ℤ} (hs : List.Sorted (· ≤ ·) l) (hne : l ≠ [])
    (x : ℤ) (hx : x ∈ l) : x ≤ l.getLast hne := by
  induction l with
  | nil => cases hne rfl
  | cons a t ih =>
    cases t with
    | nil =>
      have hxa : x = a := by simpa using hx
      subst hxa
      simp [List.getLast]
    | cons b t2 =>
      rw [List.getLast_cons (List.cons_ne_nil b t2)]
      rcases List.mem_cons.mp hx with rfl | hx2
      · exact (List.sorted_cons.mp hs).1 _ (List.getLast_mem (List.cons_ne_nil b t2))
      · exact ih (List.sorted_cons.mp hs).2 (List.cons_ne_nil b t2) hx2

/-- Bounds for the score expression `min(100, actual/ideal*100)`-or-0. -/
theorem score_bounds (ideal actual : ℚ) (hact : 0 ≤ actual) :
    0 ≤ (if ideal > 0 then min 100 (actual / ideal * 100) else 0) ∧
    (if ideal > 0 then min 100 (actual / ideal * 100) else 0) ≤ 100 := by
  split
  next h =>
    exact ⟨le_min (by norm_num) (mul_nonneg (div_nonneg hact h.le) (by norm_num)),
      min_le_left _ _⟩
  next h => norm_num

/-- C5: the consistency score always lies in `[0, 100]`; it is 0 on an empty
workout list; on a nonempty list it equals
`min(100, actual_count / ideal * 100)` with
`ideal = (span_days / 7) * target_weekly_frequency` and
`span_days = last_workout_date - first_workout_date + 1` (0 when
`ideal ≤ 0`); `span_days = 7`, frequency 3, 3 workouts yields 100; an
empty list (`actual_count = 0`) yields 0. -/
theorem consistency_score_spec (dates : List ℤ) (freq : ℚ) :
    (0 ≤ consistency_score dates freq ∧ consistency_score dates freq ≤ 100) ∧
    (dates = [] → consistency_score dates freq = 0) ∧
    (dates ≠ [] → ∃ first1 last1, first1 ∈ dates ∧ last1 ∈ dates ∧
      (∀ x ∈ dates, first1 ≤ x ∧ x ≤ last1) ∧
      consistency_score dates freq =
        (if (((last1 - first1 + 1 : ℤ) : ℚ) / 7) * freq > 0 then
          min 100 ((dates.length : ℚ) / ((((last1 - first1 + 1 : ℤ) : ℚ) / 7) * freq) * 100)
        else 0)) ∧
    consistency_score [0, 3, 6] 3 = 100 ∧
    consistency_score [] 3 = 0 := by
  have hconc : consistency_score [0, 3, 6] 3 = 100 := by
    have h2 : ([0, 3, 6] : List ℤ).getLast! = 6 := by decide
    rw [consistency_score, if_neg (by decide)]
    norm_num [h2, min_self]
  refine ⟨?_, ?_, ?_, hconc, by rw [consistency_score]; norm_num⟩
  · by_cases hne : dates = []
    · rw [consistency_score, if_pos hne]
      norm_num
    · rw [consistency_score, if_neg hne]
      exact score_bounds _ _ (Nat.cast_nonneg _)
  · intro h
    rw [consistency_score, if_pos h]
  · intro hne
    have hp : (dates.insertionSort (· ≤ ·)).Perm dates := List.perm_insertionSort _ _
    have hsne : dates.insertionSort (· ≤ ·) ≠ [] := by
      intro h0
      rw [h0] at hp
      exact hne hp.symm.eq_nil
    have hs : List.Sorted (· ≤ ·) (dates.insertionSort (· ≤ ·)) :=
      List.sorted_insertionSort _ _
    have hgl : (dates.insertionSort (· ≤ ·)).getLast! =
        (dates.insertionSort (· ≤ ·)).getLast hsne :=
      List.getLast!_of_getLast? (List.getLast?_eq_getLast_of_ne_nil hsne)
    refine ⟨(dates.insertionSort (· ≤ ·)).head!, (dates.insertionSort (· ≤ ·)).getLast!,
      ?_, ?_, ?_, ?_⟩
    · exact hp.mem_iff.mp (List.head!_mem_self hsne)
    · exact hp.mem_iff.mp (hgl ▸ List.getLast_mem hsne)
    · intro x hx
      have hxs : x ∈ dates.insertionSort (· ≤ ·) := hp.mem_iff.mpr hx
      exact ⟨sorted_head!_le hs hsne x hxs, hgl ▸ sorted_le_getLast hs hsne x hxs⟩
    · rw [consistency_score, if_neg hne]

/-- Witness for `consistency_score_spec` at a concrete workout list. -/
theorem consistency_score_spec_witness :
    consistency_score [] 3 = 0 ∧
    ∃ first1 last1, first1 ∈ ([0, 3, 6] : List ℤ) ∧ last1 ∈ ([0, 3, 6] : List ℤ) ∧
      (∀ x ∈ ([0, 3, 6] : List ℤ), first1 ≤ x ∧ x ≤ last1) ∧
      consistency_score [0, 3, 6] 3 =
        (if (((last1 - first1 + 1 : ℤ) : ℚ) / 7) * 3 > 0 then
          min 100 ((([0, 3, 6] : List ℤ).length : ℚ) /
            ((((last1 - first1 + 1 : ℤ) : ℚ) / 7) * 3) * 100)
        else 0) :=
  ⟨(consistency_score_spec [] 3).2.1 rfl,
   (consistency_score_spec [0, 3, 6] 3).2.2.1 (by decide)⟩

/-! ### Theorems: energy-balance merge -/

/-- Dates after `eb_touch`: unchanged when the date is present, appended
otherwise. -/
theorem eb_touch_dates (acc : List EBRec) (d : ℤ) :
    (eb_touch acc d).map EBRec.date =
      if d ∈ acc.map EBRec.date then acc.map EBRec.date
      else acc.map EBRec.date ++ [d] := by
  rw [eb_touch]
  by_cases h : acc.any (fun r => decide (r.date = d)) = true
  · have hmem : d ∈ acc.map EBRec.date := by
      obtain ⟨r, hr, hrd⟩ := List.any_eq_true.mp h
      exact List.mem_map.mpr ⟨r, hr, by simpa using hrd⟩
    rw [if_pos h, if_pos hmem]
  · have hmem : d ∉ acc.map EBRec.date := by
      intro hd
      obtain ⟨r, hr, hrd⟩ := List.mem_map.mp hd
      exact h (List.any_eq_true.mpr ⟨r, hr, by simpa using hrd⟩)
    rw [if_neg h, if_neg hmem]
    simp

/-- A member of `eb_touch acc d` is a member of `acc` or the fresh zeroed
record. -/
theorem eb_touch_mem (acc : List EBRec) (d : ℤ) (r : EBRec)
    (hr : r ∈ eb_touch acc d) : r ∈ acc ∨ r = ⟨d, 0, 0⟩ := by
  rw [eb_touch] at hr
  split at hr
  · exact Or.inl hr
  · rcases List.mem_append.mp hr with h | h
    · exact Or.inl h
    · exact Or.inr (by simpa using h)

/-- `eb_add_burned` leaves the date column of the collection as `eb_touch`
does. -/
theorem eb_add_burned_dates (acc : List EBRec) (p : ℤ × ℚ) :
    (eb_add_burned acc p).map EBRec.date = (eb_touch acc p.1).map EBRec.date := by
  rw [eb_add_burned, List.map_map]
  exact List.map_congr_left (fun r _ => by by_cases h : r.date = p.1 <;> simp [h])

/-- `eb_add_consumed` leaves the date column of the collection as `eb_touch`
does. -/
theorem eb_add_consumed_dates (acc : List EBRec) (p : ℤ × ℚ) :
    (eb_add_consumed acc p).map EBRec.date = (eb_touch acc p.1).map EBRec.date := by
  rw [eb_add_consumed, List.map_map]
  exact List.map_congr_left (fun r _ => by by_cases h : r.date = p.1 <;> simp [h])

/-- Dates present after folding a keyed-update step: the union of the dates
already present and the input dates. -/
theorem eb_foldl_dates_mem (step : List EBRec → ℤ × ℚ → List EBRec)
    (hstep : ∀ acc p, (step acc p).map EBRec.date = (eb_touch acc p.1).map EBRec.date)
    (ps : List (ℤ × ℚ)) (acc : List EBRec) (d : ℤ) :
    d ∈ (ps.foldl step acc).map EBRec.date ↔
      d ∈ acc.map EBRec.date ∨ d ∈ ps.map Prod.fst := by
  induction ps generalizing acc with
  | nil => simp
  | cons x xs ih =>
    rw [List.foldl_cons, ih]
    have hone : d ∈ (step acc x).map EBRec.date ↔ (d ∈ acc.map EBRec.date ∨ d = x.1) := by
      rw [hstep, eb_touch_dates]
      split
      · next h => exact ⟨Or.inl, fun hc => hc.elim id (fun he => he ▸ h)⟩
      · next h => simp
    rw [hone]
    simp only [List.map_cons, List.mem_cons]
    tauto

/-- Date-nodup is preserved by folding a keyed-update step. -/
theorem eb_foldl_dates_nodup (step : List EBRec → ℤ × ℚ → List EBRec)
    (hstep : ∀ acc p, (step acc p).map EBRec.date = (eb_touch acc p.1).map EBRec.date)
    (ps : List (ℤ × ℚ)) (acc : List EBRec) (h : (acc.map EBRec.date).Nodup) :
    ((ps.foldl step acc).map EBRec.date).Nodup := by
  induction ps generalizing acc with
  | nil => exact h
  | cons x xs ih =>
    rw [List.foldl_cons]
    refine ih _ ?_
    rw [hstep, eb_touch_dates]
    split
    · exact h
    · next hmem =>
      rw [List.nodup_append]
      refine ⟨h, List.nodup_singleton _, ?_⟩
      intro a ha hb
      rw [List.mem_singleton] at hb
      exact hmem (hb ▸ ha)

/-- While folding consumed-updates for dates other than `d`, records dated
`d` keep a zero `consumed`. -/
theorem eb_foldl_consumed_zero (ps : List (ℤ × ℚ)) (acc : List EBRec) (d : ℤ)
    (hd : d ∉ ps.map Prod.fst)
    (h0 : ∀ r ∈ acc, r.date = d → r.consumed = 0) :
    ∀ r ∈ ps.foldl eb_add_consumed acc, r.date = d → r.consumed = 0 := by
  induction ps generalizing acc with
  | nil => exact h0
  | cons x xs ih =>
    have hx1 : x.1 ≠ d := by
      intro he
      exact hd (by simp [← he])
    rw [List.foldl_cons]
    refine ih _ (fun hc => hd (by simp [hc])) ?_
    intro r hr hrd
    rw [eb_add_consumed] at hr
    obtain ⟨r0, hr0, hfr⟩ := List.mem_map.mp hr
    by_cases hcase : r0.date = x.1
    · exfalso
      rw [if_pos hcase] at hfr
      rw [← hfr] at hrd
      exact hx1 (hcase ▸ hrd)
    · rw [if_neg hcase] at hfr
      subst hfr
      rcases eb_touch_mem acc x.1 r0 hr0 with hmem | hnew
      · exact h0 r0 hmem hrd
      · rw [hnew]

/-- Folding burned-updates never writes the `consumed` field. -/
theorem eb_foldl_burned_consumed (ps : List (ℤ × ℚ)) (acc : List EBRec)
    (h0 : ∀ r ∈ acc, r.consumed = 0) :
    ∀ r ∈ ps.foldl eb_add_burned acc, r.consumed = 0 := by
  induction ps generalizing acc with
  | nil => exact h0
  | cons x xs ih =>
    rw [List.foldl_cons]
    refine ih _ ?_
    intro r hr
    rw [eb_add_burned] at hr
    obtain ⟨r0, hr0, hfr⟩ := List.mem_map.mp hr
    have hc0 : r0.consumed = 0 := by
      rcases eb_touch_mem acc x.1 r0 hr0 with hmem | hnew
      · exact h0 r0 hmem
      · rw [hnew]
    rw [← hfr]
    by_cases hcase : r0.date = x.1
    · rw [if_pos hcase]
      exact hc0
    · rw [if_neg hcase]
      exact hc0

/-- While folding burned-updates for dates other than `d`, records dated `d`
keep a zero `burned`. -/
theorem eb_foldl_burned_zero (ps : List (ℤ × ℚ)) (acc : List EBRec) (d : ℤ)
    (hd : d ∉ ps.map Prod.fst)
    (h0 : ∀ r ∈ acc, r.date = d → r.burned = 0) :
    ∀ r ∈ ps.foldl eb_add_burned acc, r.date = d → r.burned = 0 := by
  induction ps generalizing acc with
  | nil => exact h0
  | cons x xs ih =>
    have hx1 : x.1 ≠ d := by
      intro he
      exact hd (by simp [← he])
    rw [List.foldl_cons]
    refine ih _ (fun hc => hd (by simp [hc])) ?_
    intro r hr hrd
    rw [eb_add_burned] at hr
    obtain ⟨r0, hr0, hfr⟩ := List.mem_map.mp hr
    by_cases hcase : r0.date = x.1
    · exfalso
      rw [if_pos hcase] at hfr
      rw [← hfr] at hrd
      exact hx1 (hcase ▸ hrd)
    · rw [if_neg hcase] at hfr
      subst hfr
      rcases eb_touch_mem acc x.1 r0 hr0 with hmem | hnew
      · exact h0 r0 hmem hrd
      · rw [hnew]

/-- Folding consumed-updates never writes the `burned` field. -/
theorem eb_foldl_consumed_burned (ps : List (ℤ × ℚ)) (acc : List EBRec) (d : ℤ)
    (h0 : ∀ r ∈ acc, r.date = d → r.burned = 0) :
    ∀ r ∈ ps.foldl eb_add_consumed acc, r.date = d → r.burned = 0 := by
  induction ps generalizing acc with
  | nil => exact h0
  | cons x xs ih =>
    rw [List.foldl_cons]
    refine ih _ ?_
    intro r hr hrd
    rw [eb_add_consumed] at hr
    obtain ⟨r0, hr0, hfr⟩ := List.mem_map.mp hr
    have hb0 : r0.date = d → r0.burned = 0 := by
      rcases eb_touch_mem acc x.1 r0 hr0 with hmem | hnew
      · exact h0 r0 hmem
      · intro
        rw [hnew]
    rw [← hfr] at hrd ⊢
    by_cases hcase : r0.date = x.1
    · rw [if_pos hcase] at hrd ⊢
      exact hb0 hrd
    · rw [if_neg hcase] at hrd ⊢
      exact hb0 hrd

/-- C6: the energy-balance merge produces one record per date (its date
column has no duplicates) for exactly the outer union of the dates of the
two streams; a date absent from the nutrition stream has `consumed = 0` and
a date absent from the workout stream has `burned = 0`; and the net-calorie
record of every merged record is exactly `consumed - burned`. -/
theorem merge_energy_balance_spec (workouts meals : List (ℤ × ℚ)) :
    ((merge_energy_balance workouts meals).map EBRec.date).Nodup ∧
    (∀ d : ℤ, d ∈ (merge_energy_balance workouts meals).map EBRec.date ↔
      (d ∈ workouts.map Prod.fst ∨ d ∈ meals.map Prod.fst)) ∧
    (∀ r ∈ merge_energy_balance workouts meals,
      (r.date ∉ meals.map Prod.fst → r.consumed = 0) ∧
      (r.date ∉ workouts.map Prod.fst → r.burned = 0)) ∧
    (∀ i (hi : i < (merge_energy_balance workouts meals).length),
      (net_calories (merge_energy_balance workouts meals))[i]? =
        some ((merge_energy_balance workouts meals)[i].date,
          (merge_energy_balance workouts meals)[i].consumed -
            (merge_energy_balance workouts meals)[i].burned)) := by
  have hWp := List.perm_insertionSort (fun a b : ℤ × ℚ => a.1 ≤ b.1) workouts
  have hMp := List.perm_insertionSort (fun a b : ℤ × ℚ => a.1 ≤ b.1) meals
  have hWmem : ∀ d : ℤ,
      d ∈ (List.insertionSort (fun a b : ℤ × ℚ => a.1 ≤ b.1) workouts).map Prod.fst ↔
        d ∈ workouts.map Prod.fst := fun d => (hWp.map Prod.fst).mem_iff
  have hMmem : ∀ d : ℤ,
      d ∈ (List.insertionSort (fun a b : ℤ × ℚ => a.1 ≤ b.1) meals).map Prod.fst ↔
        d ∈ meals.map Prod.fst := fun d => (hMp.map Prod.fst).mem_iff
  have hddp := List.perm_insertionSort (fun a b : EBRec => a.date ≤ b.date)
    ((List.insertionSort (fun a b : ℤ × ℚ => a.1 ≤ b.1) meals).foldl eb_add_consumed
      ((List.insertionSort (fun a b : ℤ × ℚ => a.1 ≤ b.1) workouts).foldl eb_add_burned []))
  have hmerge : merge_energy_balance workouts meals =
      List.insertionSort (fun a b : EBRec => a.date ≤ b.date)
        ((List.insertionSort (fun a b : ℤ × ℚ => a.1 ≤ b.1) meals).foldl eb_add_consumed
          ((List.insertionSort (fun a b : ℤ × ℚ => a.1 ≤ b.1) workouts).foldl
            eb_add_burned [])) := rfl
  refine ⟨?_, ?_, ?_, ?_⟩
  · rw [hmerge]
    refine (hddp.map EBRec.date).nodup_iff.mpr ?_
    exact eb_foldl_dates_nodup _ eb_add_consumed_dates _ _
      (eb_foldl_dates_nodup _ eb_add_burned_dates _ _ (by simp))
  · intro d
    rw [hmerge, (hddp.map EBRec.date).mem_iff,
      eb_foldl_dates_mem _ eb_add_consumed_dates,
      eb_foldl_dates_mem _ eb_add_burned_dates]
    simp [hWmem d, hMmem d, or_comm]
  · intro r hr
    have hrdd : r ∈ (List.insertionSort (fun a b : ℤ × ℚ => a.1 ≤ b.1) meals).foldl
        eb_add_consumed
        ((List.insertionSort (fun a b : ℤ × ℚ => a.1 ≤ b.1) workouts).foldl
          eb_add_burned []) := by
      rw [hmerge] at hr
      exact hddp.mem_iff.mp hr
    constructor
    · intro hnm
      refine eb_foldl_consumed_zero _ _ r.date (fun hc => hnm ((hMmem r.date).mp hc))
        (fun r0 hr0 _ => ?_) r hrdd rfl
      exact eb_foldl_burned_consumed _ _ (by simp) r0 hr0
    · intro hnw
      refine eb_foldl_consumed_burned _ _ r.date ?_ r hrdd rfl
      exact eb_foldl_burned_zero _ _ r.date (fun hc => hnw ((hWmem r.date).mp hc))
        (by simp)
  · intro i hi
    simp [net_calories, List.getElem?_eq_getElem hi]

/-- Witness for `merge_energy_balance_spec` at concrete streams. -/
theorem merge_energy_balance_spec_witness :
    ((0 : ℤ) ∈ (merge_energy_balance [(0, 300)] [(1, 2000)]).map EBRec.date ↔
      ((0 : ℤ) ∈ ([(0, 300)] : List (ℤ × ℚ)).map Prod.fst ∨
        (0 : ℤ) ∈ ([(1, 2000)] : List (ℤ × ℚ)).map Prod.fst)) ∧
    ((merge_energy_balance [(0, 300)] [(1, 2000)]).map EBRec.date).Nodup := by
  have h := merge_energy_balance_spec [(0, 300)] [(1, 2000)]
  exact ⟨h.2.1 0, h.1⟩

/-! ### Theorems: nutrition history -/

/-- Dates after `nh_touch`: unchanged when present, appended otherwise. -/
theorem nh_touch_dates (acc : List Meal) (d : ℤ) :
    (nh_touch acc d).map Meal.date =
      if d ∈ acc.map Meal.date then acc.map Meal.date
      else acc.map Meal.date ++ [d] := by
  rw [nh_touch]
  by_cases h : acc.any (fun r => decide (r.date = d)) = true
  · have hmem : d ∈ acc.map Meal.date := by
      obtain ⟨r, hr, hrd⟩ := List.any_eq_true.mp h
      exact List.mem_map.mpr ⟨r, hr, by simpa using hrd⟩
    rw [if_pos h, if_pos hmem]
  · have hmem : d ∉ acc.map Meal.date := by
      intro hd
      obtain ⟨r, hr, hrd⟩ := List.mem_map.mp hd
      exact h (List.any_eq_true.mpr ⟨r, hr, by simpa using hrd⟩)
    rw [if_neg h, if_neg hmem]
    simp

/-- `nh_step` leaves the date column of the collection as `nh_touch` does. -/
theorem nh_step_dates (acc : List Meal) (log : Meal) :
    (nh_step acc log).map Meal.date = (nh_touch acc log.date).map Meal.date := by
  rw [nh_step, List.map_map]
  exact List.map_congr_left
    (fun r _ => by by_cases h : r.date = log.date <;> simp [h, add_meal])

/-- Dates present after the aggregation fold: the union of the dates already
present and the logs' dates. -/
theorem nh_foldl_dates_mem (logs : List Meal) (acc : List Meal) (d : ℤ) :
    d ∈ (logs.foldl nh_step acc).map Meal.date ↔
      d ∈ acc.map Meal.date ∨ d ∈ logs.map Meal.date := by
  induction logs generalizing acc with
  | nil => simp
  | cons x xs ih =>
    rw [List.foldl_cons, ih]
    have hone : d ∈ (nh_step acc x).map Meal.date ↔
        (d ∈ acc.map Meal.date ∨ d = x.date) := by
      rw [nh_step_dates, nh_touch_dates]
      split
      · next h => exact ⟨Or.inl, fun hc => hc.elim id (fun he => he ▸ h)⟩
      · next h => simp
    rw [hone]
    simp only [List.map_cons, List.mem_cons]
    tauto

/-- Date-nodup is preserved by the aggregation fold. -/
theorem nh_foldl_dates_nodup (logs : List Meal) (acc : List Meal)
    (h : (acc.map Meal.date).Nodup) :
    ((logs.foldl nh_step acc).map Meal.date).Nodup := by
  induction logs generalizing acc with
  | nil => exact h
  | cons x xs ih =>
    rw [List.foldl_cons]
    refine ih _ ?_
    rw [nh_step_dates, nh_touch_dates]
    split
    · exact h
    · next hmem =>
      rw [List.nodup_append]
      refine ⟨h, List.nodup_singleton _, ?_⟩
      intro a ha hb
      rw [List.mem_singleton] at hb
      exact hmem (hb ▸ ha)

/-- Keyed lookup after one aggregation step: the stepped date's record gains
the log's nutrients (starting from the zero record if absent); all other
dates are untouched. -/
theorem agg_find_nh_step (acc : List Meal) (log : Meal) (d : ℤ) :
    agg_find (nh_step acc log) d =
      if d = log.date then
        some (add_meal ((agg_find acc d).getD ⟨d, 0, 0, 0, 0⟩) log)
      else agg_find acc d := by
  have hcomp : ((fun r : Meal => decide (r.date = d)) ∘
      (fun r => if r.date = log.date then add_meal r log else r))
      = (fun r : Meal => decide (r.date = d)) := by
    funext r
    by_cases h : r.date = log.date <;> simp [h, add_meal]
  rw [agg_find, nh_step, List.find?_map, hcomp]
  by_cases hd : d = log.date
  · subst hd
    rw [if_pos rfl, nh_touch]
    by_cases hany : acc.any (fun r => decide (r.date = log.date)) = true
    · rw [if_pos hany]
      obtain ⟨r0, hr0mem, hr0p⟩ := List.any_eq_true.mp hany
      rcases hf : acc.find? (fun r => decide (r.date = log.date)) with _ | r1
      · exact absurd (List.find?_eq_none.mp hf r0 hr0mem) (by simpa using hr0p)
      · have hr1d : r1.date = log.date := by simpa using List.find?_some hf
        rw [agg_find, hf]
        simp [hr1d]
    · rw [if_neg hany]
      have hany2 : acc.any (fun r => decide (r.date = log.date)) = false :=
        Bool.not_eq_true _ ▸ hany
      have hf : acc.find? (fun r => decide (r.date = log.date)) = none := by
        rw [List.find?_eq_none]
        intro x hx
        exact List.any_eq_false.mp hany2 x hx
      rw [List.find?_append, hf, agg_find, hf]
      simp
  · rw [if_neg hd, nh_touch, agg_find]
    have hfix : ∀ r1 : Meal, acc.find? (fun r => decide (r.date = d)) = some r1 →
        (if r1.date = log.date then add_meal r1 log else r1) = r1 := by
      intro r1 hf
      have hr1d : r1.date = d := by simpa using List.find?_some hf
      exact if_neg (fun he : r1.date = log.date => hd (hr1d.symm.trans he))
    split
    · rcases hf : acc.find? (fun r => decide (r.date = d)) with _ | r1
      · simp [hf]
      · simp [hf, hfix r1 hf]
    · rw [List.find?_append]
      have hnew : List.find? (fun r => decide (r.date = d))
          [(⟨log.date, 0, 0, 0, 0⟩ : Meal)] = none := by
        simp
        exact fun he : log.date = d => hd he.symm
      rw [hnew]
      rcases hf : acc.find? (fun r => decide (r.date = d)) with _ | r1
      · simp [hf]
      · simp [hf, hfix r1 hf]

/-- Keyed lookup after the whole aggregation fold: the record at date `d`
accumulates exactly the logs dated `d`, in order. -/
theorem agg_find_foldl (logs : List Meal) (acc : List Meal) (d : ℤ) :
    agg_find (logs.foldl nh_step acc) d =
      match agg_find acc d with
      | some r => some ((logs.filter (fun l => decide (l.date = d))).foldl add_meal r)
      | none =>
        if logs.filter (fun l => decide (l.date = d)) = [] then none
        else some ((logs.filter (fun l => decide (l.date = d))).foldl add_meal
          ⟨d, 0, 0, 0, 0⟩) := by
  induction logs generalizing acc with
  | nil =>
    rcases haf : agg_find acc d with _ | r <;> simp [haf]
  | cons x xs ih =>
    rw [List.foldl_cons, ih, agg_find_nh_step]
    by_cases hd : d = x.date
    · rw [if_pos hd, List.filter_cons,
        if_pos (show decide (x.date = d) = true by simp [hd])]
      rcases haf : agg_find acc d with _ | r <;>
        simp [haf, List.foldl_cons, List.cons_ne_nil]
    · rw [if_neg hd, List.filter_cons,
        if_neg (show ¬decide (x.date = d) = true by
          simpa using fun he : x.date = d => hd he.symm)]

/-- `agg_find_foldl` specialised to the empty accumulator the source starts
from. -/
theorem agg_find_foldl_nil (logs : List Meal) (d : ℤ) :
    agg_find (logs.foldl nh_step []) d =
      if logs.filter (fun l => decide (l.date = d)) = [] then none
      else some ((logs.filter (fun l => decide (l.date = d))).foldl add_meal
        ⟨d, 0, 0, 0, 0⟩) := by
  rw [agg_find_foldl]
  rfl

/-- Projection lemmas for `add_meal`. -/
theorem add_meal_date (r log : Meal) : (add_meal r log).date = r.date := rfl

/-- Calories projection of `add_meal`. -/
theorem add_meal_calories (r log : Meal) :
    (add_meal r log).calories = r.calories + log.calories := rfl

/-- Protein projection of `add_meal`. -/
theorem add_meal_protein (r log : Meal) :
    (add_meal r log).protein = r.protein + log.protein := rfl

/-- Carbs projection of `add_meal`. -/
theorem add_meal_carbs (r log : Meal) :
    (add_meal r log).carbs = r.carbs + log.carbs := rfl

/-- Fat projection of `add_meal`. -/
theorem add_meal_fat (r log : Meal) :
    (add_meal r log).fat = r.fat + log.fat := rfl

/-- The fields of a fold of `add_meal`: the date is kept and each nutrient
is the base value plus the sum over the folded logs. -/
theorem foldl_add_meal_fields (ls : List Meal) (r : Meal) :
    (ls.foldl add_meal r).date = r.date ∧
    (ls.foldl add_meal r).calories = r.calories + (ls.map Meal.calories).sum ∧
    (ls.foldl add_meal r).protein = r.protein + (ls.map Meal.protein).sum ∧
    (ls.foldl add_meal r).carbs = r.carbs + (ls.map Meal.carbs).sum ∧
    (ls.foldl add_meal r).fat = r.fat + (ls.map Meal.fat).sum := by
  induction ls generalizing r with
  | nil => simp
  | cons x xs ih =>
    rw [List.foldl_cons]
    obtain ⟨h1, h2, h3, h4, h5⟩ := ih (add_meal r x)
    refine ⟨by rw [h1, add_meal_date], ?_, ?_, ?_, ?_⟩
    · rw [h2, add_meal_calories, List.map_cons, List.sum_cons]
      ring
    · rw [h3, add_meal_protein, List.map_cons, List.sum_cons]
      ring
    · rw [h4, add_meal_carbs, List.map_cons, List.sum_cons]
      ring
    · rw [h5, add_meal_fat, List.map_cons, List.sum_cons]
      ring

/-- In a date-nodup collection, lookup by a member's date returns that
member. -/
theorem agg_find_self (acc : List Meal) (h : (acc.map Meal.date).Nodup)
    (r : Meal) (hr : r ∈ acc) : agg_find acc r.date = some r := by
  induction acc with
  | nil => cases hr
  | cons a t ih =>
    rw [List.map_cons, List.nodup_cons] at h
    rcases List.mem_cons.mp hr with rfl | hrt
    · exact List.find?_cons_of_pos _ (by simp)
    · have hne : ¬a.date = r.date := by
        intro he
        exact h.1 (he ▸ List.mem_map_of_mem Meal.date hrt)
      rw [agg_find, List.find?_cons_of_neg _ (by simpa using hne)]
      exact ih h.2 hrt

/-- C10: `get_nutrition_history` is asymmetric in its window argument: with
no cutoff it returns the stored meal entries verbatim; with a cutoff it
returns at most one record per date (date column nodup), in ascending date
order, whose dates are exactly those of the logs at or after the cutoff,
and whose `calories`, `protein`, `carbs` and `fat` each equal the sum of
that field over the meals of that date at or after the cutoff. -/
theorem get_nutrition_history_spec :
    (∀ logs : List Meal, get_nutrition_history none logs = logs) ∧
    (∀ (c : ℤ) (logs : List Meal),
      ((get_nutrition_history (some c) logs).map Meal.date).Nodup ∧
      List.Pairwise (· ≤ ·) ((get_nutrition_history (some c) logs).map Meal.date) ∧
      (∀ d : ℤ, d ∈ (get_nutrition_history (some c) logs).map Meal.date ↔
        d ∈ (logs.filter (fun l => decide (c ≤ l.date))).map Meal.date) ∧
      (∀ r ∈ get_nutrition_history (some c) logs,
        r.calories = (((logs.filter (fun l => decide (c ≤ l.date))).filter
            (fun l => decide (l.date = r.date))).map Meal.calories).sum ∧
        r.protein = (((logs.filter (fun l => decide (c ≤ l.date))).filter
            (fun l => decide (l.date = r.date))).map Meal.protein).sum ∧
        r.carbs = (((logs.filter (fun l => decide (c ≤ l.date))).filter
            (fun l => decide (l.date = r.date))).map Meal.carbs).sum ∧
        r.fat = (((logs.filter (fun l => decide (c ≤ l.date))).filter
            (fun l => decide (l.date = r.date))).map Meal.fat).sum)) := by
  refine ⟨fun logs => rfl, fun c logs => ?_⟩
  have hagg : get_nutrition_history (some c) logs =
      List.insertionSort (fun a b : Meal => a.date ≤ b.date)
        ((logs.filter (fun log => decide (c ≤ log.date))).foldl nh_step []) := rfl
  have hperm := List.perm_insertionSort (fun a b : Meal => a.date ≤ b.date)
    ((logs.filter (fun log => decide (c ≤ log.date))).foldl nh_step [])
  have hnodup : (((logs.filter (fun log => decide (c ≤ log.date))).foldl
      nh_step []).map Meal.date).Nodup :=
    nh_foldl_dates_nodup _ _ (by simp)
  refine ⟨?_, ?_, ?_, ?_⟩
  · rw [hagg]
    exact (hperm.map Meal.date).nodup_iff.mpr hnodup
  · rw [hagg]
    exact List.pairwise_map.mpr
      (List.sorted_insertionSort (fun a b : Meal => a.date ≤ b.date) _)
  · intro d
    rw [hagg, (hperm.map Meal.date).mem_iff, nh_foldl_dates_mem]
    simp
  · intro r hr
    have hrmem : r ∈ (logs.filter (fun log => decide (c ≤ log.date))).foldl
        nh_step [] := by
      rw [hagg] at hr
      exact hperm.mem_iff.mp hr
    have hfind := agg_find_self _ hnodup r hrmem
    rw [agg_find_foldl_nil] at hfind
    rcases hfil : (logs.filter (fun log => decide (c ≤ log.date))).filter
        (fun l => decide (l.date = r.date)) with _ | ⟨x, xs⟩
    · rw [hfil, if_pos rfl] at hfind
      cases hfind
    · rw [hfil, if_neg (List.cons_ne_nil x xs)] at hfind
      obtain ⟨h1, h2, h3, h4, h5⟩ := foldl_add_meal_fields (x :: xs) ⟨r.date, 0, 0, 0, 0⟩
      have hr2 : r = (x :: xs).foldl add_meal ⟨r.date, 0, 0, 0, 0⟩ :=
        (Option.some_injective _ hfind).symm
      rw [hfil]
      exact ⟨by rw [hr2, h2]; simp, by rw [hr2, h3]; simp,
        by rw [hr2, h4]; simp, by rw [hr2, h5]; simp⟩

end FitnessProTracker
